import Mathlib

/-!
Shallow embedding of the NEXA NET bot's subscription, payment, file-access
and at-rest-encryption logic (database.py, payments.py, configs.py, utils.py,
admin.py, main.py), with theorems settling the specification claims.

Timestamps are modelled as integers (seconds); SQL NULL columns as Option;
table rows as structures and the relevant SQL statements as list operations.
-/

namespace NexaNet

/-- One day in seconds; timedelta(days := d) contributes d * DAY. -/
def DAY : Int := 86400

/-- A row of the users table (database.py, create_tables).
join_date is irrelevant to every claim and omitted. -/
structure UserRec where
  user_id : Int
  username : String
  expiry_date : Option Int
  payment_status : String
  total_downloads : Nat
  is_admin : Bool
deriving Repr, DecidableEq

/-- A row of the payments table (database.py, create_tables). -/
structure PaymentRec where
  payment_id : Int
  user_id : Int
  amount : Int
  payment_proof : String
  status : String
  admin_note : String
  processed_date : Option Int
deriving Repr, DecidableEq

/-- A row of the configs table (database.py, create_tables). -/
structure ConfigRec where
  config_id : Int
  filename : String
  original_filename : String
  category : String
  file_size : Int
  expiry_date : Option Int
  total_downloads : Nat
  is_active : Bool
deriving Repr, DecidableEq

/-- The hardcoded operator / admin account id (database.py line 88,
payments.py line 154, admin.py line 19). -/
def ADMIN_ID : Int := 7108127485

/-- The row produced by Database.add_user (database.py lines 94-107):
INSERT OR IGNORE (user_id, username); the remaining columns take the
table defaults: payment_status 'pending', expiry NULL, total_downloads 0,
is_admin 0. -/
def newUserRow (user_id : Int) (username : String) : UserRec :=
  { user_id := user_id
    username := username
    expiry_date := none
    payment_status := "pending"
    total_downloads := 0
    is_admin := false }

/-- Database.update_user_expiry (database.py lines 121-141): if the user has
a current expiry (past or future alike) the new expiry is current + days;
otherwise now + days; payment_status is set to 'approved'. -/
def update_user_expiry (now : Int) (days : Int) (u : UserRec) : UserRec :=
  match u.expiry_date with
  | some cur =>
      { u with expiry_date := some (cur + days * DAY), payment_status := "approved" }
  | none =>
      { u with expiry_date := some (now + days * DAY), payment_status := "approved" }

/-- Database.update_payment_status (database.py lines 143-155): sets the
users.payment_status column. -/
def update_payment_status (status : String) (u : UserRec) : UserRec :=
  { u with payment_status := status }

/-- Database.increment_downloads (database.py lines 157-169). -/
def increment_downloads (u : UserRec) : UserRec :=
  { u with total_downloads := u.total_downloads + 1 }

/-- AdminManager.process_expire_user (admin.py lines 234-279): sets the
user's expiry to now minus one day, leaving payment_status untouched. -/
def admin_force_expire (now : Int) (u : UserRec) : UserRec :=
  { u with expiry_date := some (now - DAY) }

/-- Condition of the DELETE in Database.delete_expired_users (database.py
lines 171-188): expiry_date < now AND payment_status = 'approved' AND
user_id != 7108127485.  SQL three-valued logic: a NULL expiry_date makes
the comparison NULL, so the row is not deleted. -/
def expiredUserCond (now : Int) (u : UserRec) : Bool :=
  (match u.expiry_date with
   | some t => decide (t < now)
   | none => false)
  && (u.payment_status == "approved")
  && (u.user_id != ADMIN_ID)

/-- Database.delete_expired_users (database.py lines 171-188): hard-deletes
every row matching expiredUserCond, keeping the rest. -/
def delete_expired_users (now : Int) (users : List UserRec) : List UserRec :=
  users.filter (fun u => !expiredUserCond now u)

/-- The user/payment portion of the persistent store. -/
structure BotState where
  users : List UserRec
  payments : List PaymentRec
deriving Repr, DecidableEq

/-- PaymentManager._get_payment_by_id (payments.py lines 432-451): looks the
payment up by id regardless of its status (the fallback path queries the
payments table directly). -/
def find_payment (pid : Int) (ps : List PaymentRec) : Option PaymentRec :=
  ps.find? (fun p => p.payment_id == pid)

/-- Database.update_payment (database.py lines 224-237): sets status,
admin_note, and processed_date (now when the new status is not 'pending')
on the row with the given payment_id. -/
def db_update_payment (now : Int) (pid : Int) (status note : String)
    (ps : List PaymentRec) : List PaymentRec :=
  ps.map (fun p =>
    if p.payment_id == pid then
      { p with status := status, admin_note := note,
               processed_date := if status != "pending" then some now else none }
    else p)

/-- The users-table effect of Database.update_payment_status applied through
SQL UPDATE ... WHERE user_id = ?. -/
def db_update_payment_status (uid : Int) (status : String)
    (us : List UserRec) : List UserRec :=
  us.map (fun u => if u.user_id == uid then update_payment_status status u else u)

/-- The users-table effect of Database.update_user_expiry applied through
SQL UPDATE ... WHERE user_id = ?. -/
def db_update_user_expiry (now : Int) (days : Int) (uid : Int)
    (us : List UserRec) : List UserRec :=
  us.map (fun u => if u.user_id == uid then update_user_expiry now days u else u)

/-- PaymentManager.approve_payment (payments.py lines 323-353): looks the
payment up by id (any status), and if found unconditionally marks it
'approved' and extends the owning user's expiry by 30 days.  There is no
check that the payment is still 'pending'. -/
def approve_payment (now : Int) (pid : Int) (st : BotState) : BotState :=
  match find_payment pid st.payments with
  | none => st
  | some p =>
      { users := db_update_user_expiry now 30 p.user_id st.users
        payments := db_update_payment now pid "approved" "Approved by admin" st.payments }

/-- PaymentManager.reject_payment (payments.py lines 355-385): looks the
payment up by id, and if found marks it 'rejected' and sets the owning
user's payment_status to 'rejected' (expiry and download counter are not
touched). -/
def reject_payment (now : Int) (pid : Int) (st : BotState) : BotState :=
  match find_payment pid st.payments with
  | none => st
  | some p =>
      { users := db_update_payment_status p.user_id "rejected" st.users
        payments := db_update_payment now pid "rejected" "Rejected by admin" st.payments }

/-- Every mutation of a users row performed anywhere in the source:
payment approval (database.py update_user_expiry), proof submission
(payments.py line 123, status 'pending'), rejection (payments.py line 376,
status 'rejected'), a download (database.py increment_downloads), and the
admin force-expire (admin.py lines 255-262). -/
inductive UserStep : UserRec → UserRec → Prop where
  | approve (now days : Int) (u : UserRec) : UserStep u (update_user_expiry now days u)
  | submitProof (u : UserRec) : UserStep u (update_payment_status "pending" u)
  | reject (u : UserRec) : UserStep u (update_payment_status "rejected" u)
  | download (u : UserRec) : UserStep u (increment_downloads u)
  | forceExpire (now : Int) (u : UserRec) : UserStep u (admin_force_expire now u)

/-- The subscription checks of ConfigManager.download_config (configs.py
lines 167-185): the user passes exactly when payment_status is 'approved'
and the expiry, when present, is not earlier than now (the code rejects
only when expiry < now). -/
def isEligibleForDownload (now : Int) (u : UserRec) : Bool :=
  (u.payment_status == "approved")
  && (match u.expiry_date with
      | some t => !(decide (t < now))
      | none => true)

/-- Spec-modelled for comparison, from the spec's words: eligible iff
payment status is approved AND (expiry is null OR expiry > now), the
future comparison strict. -/
def eligibleSpec (now : Int) (u : UserRec) : Bool :=
  (u.payment_status == "approved")
  && (match u.expiry_date with
      | some t => decide (now < t)
      | none => true)

/-- The distinct early-return outcomes of ConfigManager.download_config
(configs.py lines 140-194). -/
inductive DownloadOutcome where
  | userNotFound
  | channelRequired
  | paymentRequired
  | subscriptionExpired
  | configUnavailable
  | served
deriving Repr, DecidableEq

/-- The decision pipeline of ConfigManager.download_config (configs.py
lines 140-194), in source order: user row lookup, channel-membership gate,
payment status, user expiry, then config presence/active flag.  The
config's own expiry_date is never consulted. -/
def download_config (now : Int) (member : Bool)
    (user? : Option UserRec) (config? : Option ConfigRec) : DownloadOutcome :=
  match user? with
  | none => .userNotFound
  | some user =>
      if !member then .channelRequired
      else if user.payment_status != "approved" then .paymentRequired
      else
        match user.expiry_date with
        | some t =>
            if t < now then .subscriptionExpired
            else
              match config? with
              | none => .configUnavailable
              | some c => if !c.is_active then .configUnavailable else .served
        | none =>
            match config? with
            | none => .configUnavailable
            | some c => if !c.is_active then .configUnavailable else .served

/-- Membership-then-eligibility ordering and no file-expiry check, written
from the amended description, to be compared with download_config. -/
def download_spec_amended (now : Int) (member : Bool)
    (user? : Option UserRec) (config? : Option ConfigRec) : DownloadOutcome :=
  match user? with
  | none => .userNotFound
  | some user =>
      if !member then .channelRequired
      else if user.payment_status != "approved" then .paymentRequired
      else if (match user.expiry_date with
               | some t => decide (t < now)
               | none => false) then .subscriptionExpired
      else if (match config? with
               | some c => c.is_active
               | none => false) then .served
      else .configUnavailable

/-- Filesystem outcome of the post-check phase of
ConfigManager.download_config (configs.py lines 196-240). -/
structure DownloadPhaseResult where
  tempLeft : Bool
  delivered : Bool
  recorded : Bool
deriving Repr, DecidableEq

/-- The decrypt-send-cleanup phase of ConfigManager.download_config
(configs.py lines 196-240): on a successful decrypt the plaintext temp
file exists; it is removed by os.remove only after a successful send (and
the download is recorded); when the send raises, the except handler at
line 235 replies with an error and the temp file is left in place; when
the decrypt fails no temp file is written (utils.py decrypt_file writes
the output only after a successful unpad). -/
def download_phase (decryptOk sendOk : Bool) : DownloadPhaseResult :=
  if decryptOk then
    if sendOk then { tempLeft := false, delivered := true, recorded := true }
    else { tempLeft := true, delivered := false, recorded := false }
  else { tempLeft := false, delivered := false, recorded := false }

/-! ### Encryption codec (utils.py, ConfigEncryptor, lines 15-67)

Bytes are naturals; the AES-256 primitive and its PBKDF2-derived key are
library calls outside the repository, so the block cipher appears as a
pair of functions E (one AES block encryption under the fixed key) and D
(the matching decryption).  The repository code contributes the CBC
chaining, the PKCS#7 padding, and the IV framing, which pycryptodome in
turn realises; they are embedded here explicitly. -/

/-- AES.block_size: 16 bytes. -/
def BLOCK : Nat := 16

/-- Bytewise XOR, as used by CBC chaining. -/
def xorBytes (a b : List Nat) : List Nat := List.zipWith (fun x y => x ^^^ y) a b

/-- Crypto.Util.Padding.pad with PKCS#7: append k copies of the byte k,
where k = 16 - len mod 16 (so 1 ≤ k ≤ 16). -/
def pkcs7pad (d : List Nat) : List Nat :=
  d ++ List.replicate (BLOCK - d.length % BLOCK) (BLOCK - d.length % BLOCK)

/-- Crypto.Util.Padding.unpad with PKCS#7: reject an empty or non-multiple
length, read the last byte k, require 1 ≤ k ≤ min(16, len) and that the
last k bytes all equal k, and drop them.  A failure is the padding error
that makes utils.py decrypt_file return False. -/
def pkcs7unpad (d : List Nat) : Option (List Nat) :=
  if d.length = 0 then none
  else if d.length % BLOCK ≠ 0 then none
  else if d.getLastD 0 < 1 ∨ min BLOCK d.length < d.getLastD 0 then none
  else if d.drop (d.length - d.getLastD 0) ≠
      List.replicate (d.getLastD 0) (d.getLastD 0) then none
  else some (d.take (d.length - d.getLastD 0))

/-- CBC encryption over a list of 16-byte blocks: each plaintext block is
XORed with the previous ciphertext block (initially the IV) before the
block cipher E is applied. -/
def cbcEnc (E : List Nat → List Nat) : List Nat → List (List Nat) → List (List Nat)
  | _, [] => []
  | prev, p :: ps => E (xorBytes p prev) :: cbcEnc E (E (xorBytes p prev)) ps

/-- CBC decryption over a list of 16-byte blocks. -/
def cbcDec (D : List Nat → List Nat) : List Nat → List (List Nat) → List (List Nat)
  | _, [] => []
  | prev, c :: cs => xorBytes (D c) prev :: cbcDec D c cs

/-- Split a byte string into 16-byte blocks (the block structure CBC
operates on). -/
def chunks16 : List Nat → List (List Nat)
  | [] => []
  | a :: l => ((a :: l).take BLOCK) :: chunks16 ((a :: l).drop BLOCK)
  termination_by l => l.length
  decreasing_by simp [BLOCK]; omega

/-- ConfigEncryptor.encrypt_file (utils.py lines 25-45) on a byte buffer:
pad the data, CBC-encrypt it under the fresh IV, and output IV followed by
the ciphertext. -/
def encrypt_file (E : List Nat → List Nat) (iv d : List Nat) : List Nat :=
  iv ++ (cbcEnc E iv (chunks16 (pkcs7pad d))).flatten

/-- ConfigEncryptor.decrypt_file (utils.py lines 47-67) on a byte buffer:
split the first 16 bytes as IV, CBC-decrypt the remainder, and remove the
padding (none on a padding failure). -/
def decrypt_file (D : List Nat → List Nat) (enc : List Nat) : Option (List Nat) :=
  pkcs7unpad (cbcDec D (enc.take BLOCK) (chunks16 (enc.drop BLOCK))).flatten

/-! ### Filename extension gate (utils.py lines 238-246)

Filenames are lists of characters.  get_file_extension is
os.path.splitext(filename)[1].lower().replace('.', ''); splitext takes the
suffix from the last dot, provided that dot lies after the last path
separator and that some earlier character of the basename is not a dot
(so dotfiles such as ".hc" have no extension). -/

/-- The suffix of l strictly after the last occurrence of c (all of l when
c does not occur). -/
def sufAfterLast (c : Char) (l : List Char) : List Char :=
  (l.reverse.takeWhile (fun x => x != c)).reverse

/-- The prefix of l strictly before the last occurrence of c (meaningful
when c occurs in l). -/
def preBeforeLast (c : Char) (l : List Char) : List Char :=
  ((l.reverse.dropWhile (fun x => x != c)).tail).reverse

/-- os.path.splitext(p)[1]: the extension including its leading dot, or []
when p has none.  The basename is the part after the last '/'; its leading
dots never start an extension. -/
def splitextExt (p : List Char) : List Char :=
  if '.' ∈ sufAfterLast '/' p then
    if (preBeforeLast '.' (sufAfterLast '/' p)).any (fun x => x != '.') then
      '.' :: sufAfterLast '.' (sufAfterLast '/' p)
    else []
  else []

/-- Python str.lower() on one codepoint.  The Unicode lowercase table is
embedded exactly where a comparison against an ASCII word can see it:
A-Z map down by 32; U+212A KELVIN SIGN, the single codepoint outside A-Z
whose lowercase is an ASCII letter, maps to 'k'; U+0130 LATIN CAPITAL
LETTER I WITH DOT ABOVE, the single expanding mapping, maps to 'i'
followed by U+0307.  Every remaining codepoint is either fixed by
lower() or maps to a single non-ASCII character, so the identity stands
in for it without changing any comparison with an ASCII string; no
codepoint lowers to '.'. -/
def pyLowerChar (c : Char) : List Char :=
  if c.toNat ≥ 65 ∧ c.toNat ≤ 90 then [Char.ofNat (c.toNat + 32)]
  else if c.toNat = 0x212A then ['k']
  else if c.toNat = 0x130 then ['i', Char.ofNat 0x307]
  else [c]

/-- Python str.lower() on a string: codepoint-wise mapping. -/
def str_lower (s : List Char) : List Char :=
  (s.map pyLowerChar).flatten

/-- get_file_extension (utils.py lines 238-240):
os.path.splitext(filename)[1].lower().replace('.', ''). -/
def get_file_extension (p : List Char) : List Char :=
  (str_lower (splitextExt p)).filter (fun x => x != '.')

/-- The allowed config extensions (utils.py line 244). -/
def valid_extensions : List (List Char) :=
  (["hc", "ehi", "ziv", "dark", "json"]).map String.toList

/-- is_valid_config_extension (utils.py lines 242-246). -/
def is_valid_config_extension (p : List Char) : Bool :=
  valid_extensions.contains (get_file_extension p)

/-! ## Theorems -/

/-- C1: On payment approval the spec requires new expiry =
(current expiry if present and still in the future, else now) + 30 days.
The code (Database.update_user_expiry) never compares the current expiry
with now: a user whose expiry lapsed 98 days ago gets stale expiry + 30
days — still 68 days in the past — instead of now + 30 days, so an
approved, paying user stays expired. -/
theorem C1_approval_extends_from_stale_expiry :
    (update_user_expiry (100 * DAY) 30
        { user_id := 1, username := "u", expiry_date := some (2 * DAY),
          payment_status := "pending", total_downloads := 0,
          is_admin := false }).expiry_date = some (32 * DAY)
    ∧ (update_user_expiry (100 * DAY) 30
        { user_id := 1, username := "u", expiry_date := some (2 * DAY),
          payment_status := "pending", total_downloads := 0,
          is_admin := false }).payment_status = "approved"
    ∧ (32 * DAY : Int) ≠ 100 * DAY + 30 * DAY
    ∧ (32 * DAY : Int) < 100 * DAY := by
  refine ⟨rfl, rfl, by decide, by decide⟩

/-- C2: the spec requires approving an already-terminal payment to fail
with AlreadyProcessed and not re-extend expiry.  The code
(PaymentManager.approve_payment) performs no status check: approving
payment 5 a second time, after it is already 'approved', silently succeeds
and extends the owner's expiry by another 30 days. -/
theorem C2_terminal_payment_reapproved :
    (approve_payment 1000 5
        { users := [{ user_id := 1, username := "u", expiry_date := none,
                      payment_status := "pending", total_downloads := 0,
                      is_admin := false }],
          payments := [{ payment_id := 5, user_id := 1, amount := 200,
                         payment_proof := "p.jpg", status := "pending",
                         admin_note := "", processed_date := none }] }).payments.map
        PaymentRec.status = ["approved"]
    ∧ (approve_payment 1000 5
        { users := [{ user_id := 1, username := "u", expiry_date := none,
                      payment_status := "pending", total_downloads := 0,
                      is_admin := false }],
          payments := [{ payment_id := 5, user_id := 1, amount := 200,
                         payment_proof := "p.jpg", status := "pending",
                         admin_note := "", processed_date := none }] }).users.map
        UserRec.expiry_date = [some (1000 + 30 * DAY)]
    ∧ (approve_payment 2000 5 (approve_payment 1000 5
        { users := [{ user_id := 1, username := "u", expiry_date := none,
                      payment_status := "pending", total_downloads := 0,
                      is_admin := false }],
          payments := [{ payment_id := 5, user_id := 1, amount := 200,
                         payment_proof := "p.jpg", status := "pending",
                         admin_note := "", processed_date := none }] })).users.map
        UserRec.expiry_date = [some (1000 + 30 * DAY + 30 * DAY)] := by
  refine ⟨rfl, by decide, by decide⟩

/-- C3 counterexample: the claim says a file whose expiry is past is
rejected even when still flagged active, and that subscription eligibility
is validated before the membership gate.  In the code a config with
expiry_date 50 < now = 100 but is_active still true is served, and a
non-member whose payment is merely 'pending' is rejected with the
channel-membership reason, not the payment reason. -/
theorem C3_expired_active_config_served :
    download_config 100 true
        (some { user_id := 1, username := "u", expiry_date := none,
                payment_status := "approved", total_downloads := 0,
                is_admin := false })
        (some { config_id := 9, filename := "enc", original_filename := "a.hc",
                category := "Safaricom", file_size := 10, expiry_date := some 50,
                total_downloads := 0, is_active := true }) = .served
    ∧ (50 : Int) < 100
    ∧ download_config 100 false
        (some { user_id := 1, username := "u", expiry_date := none,
                payment_status := "pending", total_downloads := 0,
                is_admin := false })
        (some { config_id := 9, filename := "enc", original_filename := "a.hc",
                category := "Safaricom", file_size := 10, expiry_date := some 50,
                total_downloads := 0, is_active := true }) = .channelRequired := by
  refine ⟨rfl, by decide, rfl⟩

/-- C3 amended: the download pipeline checks, in order, user existence,
channel membership, payment status, user expiry, then config
presence/active flag, each failure with its own outcome; the config's own
expiry timestamp is never consulted. -/
theorem C3_download_check_order (now : Int) (member : Bool)
    (user? : Option UserRec) (config? : Option ConfigRec) :
    download_config now member user? config? =
      download_spec_amended now member user? config? := by
  rcases user? with _ | u
  · rfl
  simp only [download_config, download_spec_amended]
  rcases member with _ | _
  · simp
  simp only [Bool.not_true, Bool.false_eq_true, if_false]
  by_cases hs : u.payment_status != "approved"
  · simp [hs]
  simp only [hs, Bool.false_eq_true, if_false]
  rcases hx : u.expiry_date with _ | t <;>
    simp only [decide_eq_true_eq]
  · rcases config? with _ | c
    · simp
    rcases hb : c.is_active <;> simp [hb]
  by_cases hlt : t < now
  · simp [hlt]
  simp only [hlt, if_false, decide_eq_true_eq]
  rcases config? with _ | c
  · simp
  rcases hb : c.is_active <;> simp [hb]

/-- C4 counterexample: the claim says the transient decrypted copy is
deleted on every path; in the code a download whose decryption succeeds
but whose send raises leaves the plaintext temp file in place (the except
handler at configs.py line 235 performs no cleanup). -/
theorem C4_send_failure_leaves_plaintext :
    (download_phase true false).tempLeft = true
    ∧ (download_phase true true).tempLeft = false := by
  exact ⟨rfl, rfl⟩

/-- C4 amended: the transient decrypted copy is removed only on the
success path; it remains at rest exactly when decryption succeeded and
the subsequent send failed (until the daily temp-folder sweep purges
files older than 24 hours). -/
theorem C4_plaintext_cleanup_on_success_only (decryptOk sendOk : Bool) :
    (download_phase decryptOk sendOk).tempLeft = (decryptOk && !sendOk) := by
  rcases decryptOk with _ | _ <;> rcases sendOk with _ | _ <;> rfl

/-- C6 counterexample: the claim requires the expiry to be strictly in the
future; at the boundary instant expiry = now = 100 the code accepts
(it rejects only when expiry < now) while the spec predicate rejects. -/
theorem C6_boundary_instant_eligible :
    isEligibleForDownload 100
        { user_id := 2, username := "u", expiry_date := some 100,
          payment_status := "approved", total_downloads := 0,
          is_admin := false } = true
    ∧ eligibleSpec 100
        { user_id := 2, username := "u", expiry_date := some 100,
          payment_status := "approved", total_downloads := 0,
          is_admin := false } = false := by
  refine ⟨by decide, by decide⟩

/-- C6 amended: download eligibility holds exactly when payment status is
'approved' and the expiry is null or not earlier than now (≥ now, so the
boundary instant is still eligible); it is false for any other status and
for an approved user whose expiry is past; a null expiry with approved
status is perpetually eligible. -/
theorem C6_eligibility_characterization (now : Int) (u : UserRec) :
    isEligibleForDownload now u = true ↔
      (u.payment_status = "approved" ∧
        (u.expiry_date = none ∨ ∃ t, u.expiry_date = some t ∧ now ≤ t)) := by
  rcases hx : u.expiry_date with _ | t <;>
    simp [isEligibleForDownload, hx, Int.not_lt]

/-- C8: the user step of the maintenance sweep
(Database.delete_expired_users) retains exactly the rows that do not
satisfy (status approved ∧ some past expiry ∧ not the operator account);
equivalently it hard-deletes exactly the approved, non-null-past-expiry,
non-operator rows, so null-expiry users and the operator are never
deleted whatever their status. -/
theorem C8_sweep_deletes_exactly_expired (now : Int) (users : List UserRec)
    (u : UserRec) :
    u ∈ delete_expired_users now users ↔
      u ∈ users ∧
        ¬(u.payment_status = "approved" ∧
          (∃ t, u.expiry_date = some t ∧ t < now) ∧ u.user_id ≠ ADMIN_ID) := by
  rw [delete_expired_users, List.mem_filter]
  refine and_congr_right fun _ => ?_
  rcases hx : u.expiry_date with _ | t <;> simp [expiredUserCond, hx]
  have hiff : (now ≤ t) = ¬(t < now) := by simp [Int.not_lt]
  rw [hiff]
  tauto

/-- Every user-row mutation in the source keeps payment_status inside
{pending, approved, rejected}. -/
theorem userStep_status_closed (a b : UserRec) (h : UserStep a b)
    (ha : a.payment_status = "pending" ∨ a.payment_status = "approved" ∨
      a.payment_status = "rejected") :
    b.payment_status = "pending" ∨ b.payment_status = "approved" ∨
      b.payment_status = "rejected" := by
  cases h with
  | approve now days =>
      rcases hx : a.expiry_date with _ | t <;>
        simp [update_user_expiry, hx]
  | submitProof => simp [update_payment_status]
  | reject => simp [update_payment_status]
  | download => simpa [increment_downloads] using ha
  | forceExpire now => simpa [admin_force_expire] using ha

/-- C9: a row created by registration (Database.add_user) starts with
payment status 'pending', a null expiry, zero downloads and no admin flag,
and under every sequence of user-row mutations the source can perform the
status stays in {pending, approved, rejected} — the spec's 'none' state is
never written, so a never-paid user carries the same 'pending' status as a
user whose proof is under review. -/
theorem C9_new_user_defaults_and_no_none (uid : Int) (name : String)
    (v : UserRec)
    (hreach : Relation.ReflTransGen UserStep (newUserRow uid name) v) :
    (newUserRow uid name).payment_status = "pending"
    ∧ (newUserRow uid name).expiry_date = none
    ∧ (newUserRow uid name).total_downloads = 0
    ∧ (newUserRow uid name).is_admin = false
    ∧ v.payment_status ≠ "none" := by
  refine ⟨rfl, rfl, rfl, rfl, ?_⟩
  have key : v.payment_status = "pending" ∨ v.payment_status = "approved" ∨
      v.payment_status = "rejected" := by
    induction hreach with
    | refl => exact Or.inl rfl
    | tail _ hstep ih => exact userStep_status_closed _ _ hstep ih
  rcases key with h | h | h <;> simp [h]

/-- C9 witness: a concrete two-step history (registration, proof
submission, approval) reaches a row whose status is not 'none'. -/
theorem C9_no_none_witness :
    Relation.ReflTransGen UserStep (newUserRow 1 "alice")
      (update_user_expiry 1000 30 (update_payment_status "pending" (newUserRow 1 "alice")))
    ∧ (update_user_expiry 1000 30
        (update_payment_status "pending" (newUserRow 1 "alice"))).payment_status ≠ "none" := by
  have hr : Relation.ReflTransGen UserStep (newUserRow 1 "alice")
      (update_user_expiry 1000 30 (update_payment_status "pending" (newUserRow 1 "alice"))) :=
    Relation.ReflTransGen.tail
      (Relation.ReflTransGen.single (UserStep.submitProof _))
      (UserStep.approve 1000 30 _)
  exact ⟨hr, (C9_new_user_defaults_and_no_none 1 "alice" _ hr).2.2.2.2⟩

/-- C10: rejecting a pending payment sets the owning user's payment status
to 'rejected' and leaves their expiry and download counter unchanged;
rows of other users are untouched; the rejected owner is ineligible for
download at every instant afterwards, even while their old expiry is
still in the future. -/
theorem C10_reject_frame_and_eligibility (now pid : Int) (st : BotState)
    (p : PaymentRec) (hfind : find_payment pid st.payments = some p)
    (_hpend : p.status = "pending") :
    (reject_payment now pid st).users.length = st.users.length
    ∧ ∀ v ∈ (reject_payment now pid st).users, ∃ u ∈ st.users,
        v.expiry_date = u.expiry_date
        ∧ v.total_downloads = u.total_downloads
        ∧ (u.user_id = p.user_id → v.payment_status = "rejected"
            ∧ ∀ t : Int, isEligibleForDownload t v = false)
        ∧ (u.user_id ≠ p.user_id → v = u) := by
  have hru : (reject_payment now pid st).users =
      db_update_payment_status p.user_id "rejected" st.users := by
    simp [reject_payment, hfind]
  constructor
  · rw [hru]; simp [db_update_payment_status]
  intro v hv
  rw [hru] at hv
  simp only [db_update_payment_status, List.mem_map] at hv
  obtain ⟨u, hu, hvu⟩ := hv
  refine ⟨u, hu, ?_⟩
  by_cases hid : u.user_id = p.user_id
  · rw [← hvu]
    simp only [hid, beq_self_eq_true, if_true]
    refine ⟨rfl, rfl, fun _ => ⟨rfl, fun t => ?_⟩, fun hc => absurd rfl hc⟩
    simp [isEligibleForDownload, update_payment_status]
  · have hne : (u.user_id == p.user_id) = false := by simpa using hid
    rw [← hvu]
    simp only [hne, if_false]
    exact ⟨rfl, rfl, fun hc => absurd hc hid, fun _ => rfl⟩

/-- C10 witness: a concrete one-user, one-pending-payment store; after the
rejection the user keeps expiry some 500000 and 3 downloads but carries
status 'rejected' and is ineligible. -/
theorem C10_reject_witness :
    find_payment 5
        ({ users := [{ user_id := 1, username := "u", expiry_date := some 500000,
                       payment_status := "approved", total_downloads := 3,
                       is_admin := false }],
           payments := [{ payment_id := 5, user_id := 1, amount := 200,
                          payment_proof := "p.jpg", status := "pending",
                          admin_note := "", processed_date := none }] } : BotState).payments =
      some { payment_id := 5, user_id := 1, amount := 200,
             payment_proof := "p.jpg", status := "pending",
             admin_note := "", processed_date := none }
    ∧ ({ payment_id := 5, user_id := 1, amount := 200,
         payment_proof := "p.jpg", status := "pending",
         admin_note := "", processed_date := none } : PaymentRec).status = "pending"
    ∧ (reject_payment 100 5
        { users := [{ user_id := 1, username := "u", expiry_date := some 500000,
                      payment_status := "approved", total_downloads := 3,
                      is_admin := false }],
          payments := [{ payment_id := 5, user_id := 1, amount := 200,
                         payment_proof := "p.jpg", status := "pending",
                         admin_note := "", processed_date := none }] }).users.length =
      ({ users := [{ user_id := 1, username := "u", expiry_date := some 500000,
                     payment_status := "approved", total_downloads := 3,
                     is_admin := false }],
         payments := [{ payment_id := 5, user_id := 1, amount := 200,
                        payment_proof := "p.jpg", status := "pending",
                        admin_note := "", processed_date := none }] } : BotState).users.length := by
  refine ⟨rfl, rfl, ?_⟩
  exact (C10_reject_frame_and_eligibility 100 5
    { users := [{ user_id := 1, username := "u", expiry_date := some 500000,
                  payment_status := "approved", total_downloads := 3,
                  is_admin := false }],
      payments := [{ payment_id := 5, user_id := 1, amount := 200,
                     payment_proof := "p.jpg", status := "pending",
                     admin_note := "", processed_date := none }] }
    { payment_id := 5, user_id := 1, amount := 200,
      payment_proof := "p.jpg", status := "pending",
      admin_note := "", processed_date := none } rfl rfl).1

/-! ### Round trip of the encryption codec (C5) -/

/-- The padded buffer's length is a positive multiple of the block size. -/
theorem pkcs7pad_length (d : List Nat) :
    (pkcs7pad d).length = d.length + (BLOCK - d.length % BLOCK) := by
  simp [pkcs7pad]

/-- Removing PKCS#7 padding undoes adding it. -/
theorem pkcs7unpad_pad (d : List Nat) : pkcs7unpad (pkcs7pad d) = some d := by
  have hmlt : d.length % BLOCK < BLOCK := Nat.mod_lt _ (by decide)
  have hk1 : 1 ≤ BLOCK - d.length % BLOCK := by omega
  have hk16 : BLOCK - d.length % BLOCK ≤ BLOCK := by omega
  have hlen : (pkcs7pad d).length = d.length + (BLOCK - d.length % BLOCK) :=
    pkcs7pad_length d
  have hmod : (pkcs7pad d).length % BLOCK = 0 := by
    rw [hlen]
    simp only [BLOCK] at *
    omega
  have hlast : (pkcs7pad d).getLastD 0 = BLOCK - d.length % BLOCK := by
    simp only [pkcs7pad]
    rcases Nat.exists_eq_succ_of_ne_zero
      (show BLOCK - d.length % BLOCK ≠ 0 by omega) with ⟨m, hm⟩
    rw [hm, List.replicate_succ']
    rw [← List.append_assoc]
    exact List.getLastD_concat _ _ _
  have harith : (pkcs7pad d).length - (BLOCK - d.length % BLOCK) = d.length := by
    omega
  have hdrop : (pkcs7pad d).drop ((pkcs7pad d).length - (BLOCK - d.length % BLOCK)) =
      List.replicate (BLOCK - d.length % BLOCK) (BLOCK - d.length % BLOCK) := by
    rw [harith]
    simp only [pkcs7pad]
    exact List.drop_left' rfl
  have htake : (pkcs7pad d).take ((pkcs7pad d).length - (BLOCK - d.length % BLOCK)) = d := by
    rw [harith]
    simp only [pkcs7pad]
    exact List.take_left' rfl
  simp only [pkcs7unpad, hlast]
  rw [if_neg (by omega), if_neg (by simp [hmod]), if_neg (by omega),
    if_neg (by simp [hdrop]), htake]

/-- Bytewise XOR with the same mask twice is the identity when the mask is
at least as long. -/
theorem xorBytes_cancel (a b : List Nat) (h : a.length ≤ b.length) :
    xorBytes (xorBytes a b) b = a := by
  induction a generalizing b with
  | nil => simp [xorBytes]
  | cons x xs ih =>
      rcases b with _ | ⟨y, ys⟩
      · simp at h
      · have h' : xs.length ≤ ys.length := by
          simp only [List.length_cons] at h
          omega
        have hx : x ^^^ y ^^^ y = x := Nat.xor_cancel_right y x
        have htail := ih ys h'
        simp only [xorBytes, List.zipWith_cons_cons]
        simp only [xorBytes] at htail
        simp [hx, htail]

theorem xorBytes_length (a b : List Nat) :
    (xorBytes a b).length = min a.length b.length := by
  simp [xorBytes]

/-- CBC decryption inverts CBC encryption, block by block, for any block
cipher E whose inverse is D on 16-byte blocks. -/
theorem cbcDec_cbcEnc (E D : List Nat → List Nat)
    (hED : ∀ x, x.length = BLOCK → (E x).length = BLOCK ∧ D (E x) = x)
    (ps : List (List Nat)) (prev : List Nat) (hprev : prev.length = BLOCK)
    (hps : ∀ p ∈ ps, p.length = BLOCK) :
    cbcDec D prev (cbcEnc E prev ps) = ps := by
  induction ps generalizing prev with
  | nil => rfl
  | cons p ps ih =>
      have hp : p.length = BLOCK := hps p (by simp)
      have hxlen : (xorBytes p prev).length = BLOCK := by
        rw [xorBytes_length, hp, hprev]; simp
      obtain ⟨hclen, hinv⟩ := hED (xorBytes p prev) hxlen
      simp only [cbcEnc, cbcDec]
      rw [hinv, xorBytes_cancel p prev (by omega)]
      rw [ih _ hclen (fun q hq => hps q (by simp [hq]))]

/-- Every ciphertext block produced by CBC encryption of 16-byte blocks is
16 bytes. -/
theorem cbcEnc_blocks_length (E D : List Nat → List Nat)
    (hED : ∀ x, x.length = BLOCK → (E x).length = BLOCK ∧ D (E x) = x)
    (ps : List (List Nat)) (prev : List Nat) (hprev : prev.length = BLOCK)
    (hps : ∀ p ∈ ps, p.length = BLOCK) :
    ∀ c ∈ cbcEnc E prev ps, c.length = BLOCK := by
  induction ps generalizing prev with
  | nil => intro c hc; simp [cbcEnc] at hc
  | cons p ps ih =>
      intro c hc
      have hp : p.length = BLOCK := hps p (by simp)
      have hxlen : (xorBytes p prev).length = BLOCK := by
        rw [xorBytes_length, hp, hprev]; simp
      obtain ⟨hclen, _⟩ := hED (xorBytes p prev) hxlen
      simp only [cbcEnc, List.mem_cons] at hc
      rcases hc with rfl | hc
      · exact hclen
      · exact ih _ hclen (fun q hq => hps q (by simp [hq])) c hc

/-- Flattening the 16-byte chunks of a buffer gives the buffer back. -/
theorem chunks16_flatten (l : List Nat) : (chunks16 l).flatten = l := by
  induction l using chunks16.induct with
  | case1 => simp [chunks16]
  | case2 a l ih =>
      simp only [chunks16, List.flatten_cons]
      rw [ih, List.take_append_drop]

/-- Every chunk of a buffer whose length is a positive multiple of 16 is
exactly 16 bytes. -/
theorem chunks16_blocks_length (l : List Nat) (hmod : l.length % BLOCK = 0) :
    ∀ b ∈ chunks16 l, b.length = BLOCK := by
  induction l using chunks16.induct with
  | case1 => intro b hb; simp [chunks16] at hb
  | case2 a l ih =>
      intro b hb
      have hge : BLOCK ≤ (a :: l).length := by
        by_contra hlt
        push_neg at hlt
        rw [Nat.mod_eq_of_lt hlt] at hmod
        simp at hmod
      simp only [chunks16, List.mem_cons] at hb
      rcases hb with rfl | hb
      · rw [List.length_take]
        omega
      · have hmod' : ((a :: l).drop BLOCK).length % BLOCK = 0 := by
          rw [List.length_drop]
          simp only [BLOCK] at hmod hge ⊢
          omega
        exact ih hmod' b hb

/-- Chunking the concatenation of 16-byte blocks gives the blocks back. -/
theorem chunks16_flatten_blocks (bs : List (List Nat))
    (hbs : ∀ b ∈ bs, b.length = BLOCK) : chunks16 bs.flatten = bs := by
  induction bs with
  | nil => simp [chunks16]
  | cons b bs ih =>
      have hb : b.length = BLOCK := hbs b (by simp)
      rcases b with _ | ⟨x, xs⟩
      · simp [BLOCK] at hb
      rw [List.flatten_cons, List.cons_append]
      simp only [chunks16]
      rw [← List.cons_append, List.take_left' hb, List.drop_left' hb]
      rw [ih (fun q hq => hbs q (by simp [hq]))]

/-- C5: for every byte buffer, decrypting the encryption returns exactly
the buffer: encryption pads with PKCS#7, CBC-encrypts under the block
cipher E (AES-256 under the fixed PBKDF2-derived key, whose inverse on
16-byte blocks is D), and outputs IV followed by the ciphertext;
decryption splits the first block as IV, CBC-decrypts the rest and removes
the padding. -/
theorem C5_encrypt_decrypt_roundtrip (E D : List Nat → List Nat)
    (iv d : List Nat) (hiv : iv.length = BLOCK)
    (hED : ∀ x, x.length = BLOCK → (E x).length = BLOCK ∧ D (E x) = x) :
    decrypt_file D (encrypt_file E iv d) = some d := by
  have hmod : (pkcs7pad d).length % BLOCK = 0 := by
    rw [pkcs7pad_length]
    simp only [BLOCK]
    omega
  have hblocks : ∀ b ∈ chunks16 (pkcs7pad d), b.length = BLOCK :=
    chunks16_blocks_length _ hmod
  have hcblocks : ∀ c ∈ cbcEnc E iv (chunks16 (pkcs7pad d)), c.length = BLOCK :=
    cbcEnc_blocks_length E D hED _ iv hiv hblocks
  simp only [decrypt_file, encrypt_file]
  rw [List.take_left' hiv, List.drop_left' hiv]
  rw [chunks16_flatten_blocks _ hcblocks]
  rw [cbcDec_cbcEnc E D hED _ iv hiv hblocks]
  rw [chunks16_flatten]
  exact pkcs7unpad_pad d

/-- C5 witness: the identity block cipher satisfies the inverse-pair
hypothesis, a 16-byte IV of zeros satisfies the length hypothesis, and the
round trip evaluates on the concrete buffer [7, 1, 200]. -/
theorem C5_roundtrip_witness :
    (List.replicate 16 0).length = BLOCK
    ∧ decrypt_file id (encrypt_file id (List.replicate 16 0) [7, 1, 200]) =
        some [7, 1, 200] := by
  refine ⟨by simp [BLOCK], ?_⟩
  exact C5_encrypt_decrypt_roundtrip id id (List.replicate 16 0) [7, 1, 200]
    (by simp [BLOCK]) (fun x hx => ⟨hx, rfl⟩)

/-! ### The filename extension gate (C7) -/

/-- Lowercasing never turns a non-dot character into a dot. -/
theorem pyLowerChar_ne_dot (c : Char) (h : c ≠ '.') :
    ∀ x ∈ pyLowerChar c, x ≠ '.' := by
  intro x hx
  unfold pyLowerChar at hx
  by_cases h1 : c.toNat ≥ 65 ∧ c.toNat ≤ 90
  · rw [if_pos h1] at hx
    simp only [List.mem_singleton] at hx
    subst hx
    obtain ⟨ha, hb⟩ := h1
    intro hEq
    interval_cases hn : c.toNat <;> exact absurd hEq (by decide)
  · rw [if_neg h1] at hx
    by_cases h2 : c.toNat = 0x212A
    · rw [if_pos h2] at hx
      simp only [List.mem_singleton] at hx
      subst hx
      decide
    · rw [if_neg h2] at hx
      by_cases h3 : c.toNat = 0x130
      · rw [if_pos h3] at hx
        rcases List.mem_cons.mp hx with rfl | hx
        · decide
        · simp only [List.mem_singleton] at hx
          subst hx
          decide
      · rw [if_neg h3] at hx
        simp only [List.mem_singleton] at hx
        subst hx
        exact h

theorem takeWhile_middle (q : Char → Bool) (l1 : List Char) (x : Char)
    (l2 : List Char) (h1 : ∀ a ∈ l1, q a = true) (hx : q x = false) :
    (l1 ++ x :: l2).takeWhile q = l1 := by
  induction l1 with
  | nil => simpa using @List.takeWhile_cons_of_neg Char q x l2 (by simp [hx])
  | cons a as ih =>
      rw [List.cons_append,
        List.takeWhile_cons_of_pos (h1 a (by simp)),
        ih (fun b hb => h1 b (by simp [hb]))]

theorem dropWhile_middle (q : Char → Bool) (l1 : List Char) (x : Char)
    (l2 : List Char) (h1 : ∀ a ∈ l1, q a = true) (hx : q x = false) :
    (l1 ++ x :: l2).dropWhile q = x :: l2 := by
  induction l1 with
  | nil => simpa using @List.dropWhile_cons_of_neg Char q x l2 (by simp [hx])
  | cons a as ih =>
      rw [List.cons_append,
        List.dropWhile_cons_of_pos (h1 a (by simp)),
        ih (fun b hb => h1 b (by simp [hb]))]

/-- The suffix after the last occurrence, computed on an explicit
decomposition whose tail avoids the marker. -/
theorem sufAfterLast_append (c : Char) (s e : List Char) (he : c ∉ e) :
    sufAfterLast c (s ++ c :: e) = e := by
  unfold sufAfterLast
  rw [List.reverse_append, List.reverse_cons, List.append_assoc,
    List.singleton_append]
  rw [takeWhile_middle _ e.reverse c s.reverse
    (fun a ha => by
      simp only [List.mem_reverse] at ha
      exact bne_iff_ne.mpr (fun hc => he (hc ▸ ha)))
    (by simp)]
  exact List.reverse_reverse e

theorem sufAfterLast_not_mem (c : Char) (l : List Char) (h : c ∉ l) :
    sufAfterLast c l = l := by
  unfold sufAfterLast
  rw [List.takeWhile_eq_self_iff.mpr
    (fun x hx => by
      simp only [List.mem_reverse] at hx
      exact bne_iff_ne.mpr (fun hc => h (hc ▸ hx)))]
  exact List.reverse_reverse l

theorem mem_sufAfterLast (c : Char) (l : List Char) :
    ∀ x ∈ sufAfterLast c l, x ≠ c := by
  intro x hx
  unfold sufAfterLast at hx
  rw [List.mem_reverse] at hx
  have := List.mem_takeWhile_imp hx
  simpa using this

theorem preBeforeLast_append (c : Char) (s e : List Char) (he : c ∉ e) :
    preBeforeLast c (s ++ c :: e) = s := by
  unfold preBeforeLast
  rw [List.reverse_append, List.reverse_cons, List.append_assoc,
    List.singleton_append]
  rw [dropWhile_middle _ e.reverse c s.reverse
    (fun a ha => by
      simp only [List.mem_reverse] at ha
      exact bne_iff_ne.mpr (fun hc => he (hc ▸ ha)))
    (by simp)]
  exact List.reverse_reverse s

theorem dropWhile_mem_head (c : Char) (l : List Char) (h : c ∈ l) :
    ∃ r, l.dropWhile (fun x => x != c) = c :: r := by
  induction l with
  | nil => cases h
  | cons a as ih =>
      by_cases hac : a = c
      · subst hac
        exact ⟨as, List.dropWhile_cons_of_neg (by simp)⟩
      · rw [List.dropWhile_cons_of_pos (by simp [hac])]
        rcases List.mem_cons.mp h with hc | hc
        · exact absurd hc.symm hac
        · exact ih hc

/-- Every list splits at the last occurrence of a contained marker. -/
theorem decompLast (c : Char) (l : List Char) (h : c ∈ l) :
    l = preBeforeLast c l ++ c :: sufAfterLast c l := by
  obtain ⟨r, hr⟩ := dropWhile_mem_head c l.reverse (List.mem_reverse.mpr h)
  have hsplit : l.reverse =
      l.reverse.takeWhile (fun x => x != c) ++ (c :: r) := by
    rw [← hr, List.takeWhile_append_dropWhile]
  have hpre : preBeforeLast c l = r.reverse := by
    unfold preBeforeLast
    rw [hr]
    simp
  calc l = l.reverse.reverse := (List.reverse_reverse l).symm
  _ = ((l.reverse.takeWhile (fun x => x != c)) ++ (c :: r)).reverse := by
        rw [← hsplit]
  _ = (c :: r).reverse ++ (l.reverse.takeWhile (fun x => x != c)).reverse := by
        rw [List.reverse_append]
  _ = r.reverse ++ c :: sufAfterLast c l := by
        rw [List.reverse_cons, List.append_assoc, List.singleton_append]
        rfl
  _ = preBeforeLast c l ++ c :: sufAfterLast c l := by rw [hpre]

/-- Lowercasing then stripping dots on a dot-headed extension keeps exactly
the lowercased tail when the tail has no dots. -/
theorem filter_lower_ext (e : List Char) (he : '.' ∉ e) :
    (str_lower ('.' :: e)).filter (fun x => x != '.') = str_lower e := by
  have hdot : pyLowerChar '.' = ['.'] := by decide
  rw [str_lower, List.map_cons, List.flatten_cons, hdot, List.singleton_append]
  rw [List.filter_cons_of_neg (by decide)]
  rw [List.filter_eq_self.mpr ?_]
  · rfl
  intro x hx
  rw [List.mem_flatten] at hx
  obtain ⟨s, hs, hxs⟩ := hx
  rw [List.mem_map] at hs
  obtain ⟨y, hy, rfl⟩ := hs
  have hyne : y ≠ '.' := fun hc => he (hc ▸ hy)
  simpa using pyLowerChar_ne_dot y hyne x hxs

/-- C7: file registration accepts a filename exactly when it decomposes as
s ++ '.' :: e with the extension e dot-free and separator-free, the part
of s after its last '/' containing some non-dot character (so dotfiles and
dotless names have no extension and are rejected), and e lowercased the
way Python str.lower() does being one of hc, ehi, ziv, dark, json (so
e.g. dar followed by U+212A KELVIN SIGN is accepted as dark). -/
theorem C7_extension_gate (p : List Char) :
    is_valid_config_extension p = true ↔
      ∃ s e, p = s ++ '.' :: e ∧ '.' ∉ e ∧ '/' ∉ e
        ∧ (sufAfterLast '/' s).any (fun x => x != '.') = true
        ∧ str_lower e ∈ valid_extensions := by
  rw [is_valid_config_extension, List.elem_iff]
  constructor
  · intro hv
    by_cases hdot : '.' ∈ sufAfterLast '/' p
    case neg =>
      exfalso
      rw [get_file_extension, splitextExt, if_neg hdot] at hv
      simp [valid_extensions, str_lower] at hv
    by_cases hpre :
        (preBeforeLast '.' (sufAfterLast '/' p)).any (fun x => x != '.') = true
    case neg =>
      exfalso
      rw [get_file_extension, splitextExt, if_pos hdot, if_neg hpre] at hv
      simp [valid_extensions, str_lower] at hv
    have hbase := decompLast '.' (sufAfterLast '/' p) hdot
    have hsufdot : ∀ x ∈ sufAfterLast '.' (sufAfterLast '/' p), x ≠ '.' :=
      mem_sufAfterLast '.' _
    have hsufslash : ∀ x ∈ sufAfterLast '.' (sufAfterLast '/' p), x ≠ '/' := by
      intro x hx
      refine mem_sufAfterLast '/' p x ?_
      rw [hbase]
      exact List.mem_append.mpr (Or.inr (List.mem_cons.mpr (Or.inr hx)))
    have hext : get_file_extension p =
        str_lower (sufAfterLast '.' (sufAfterLast '/' p)) := by
      rw [get_file_extension, splitextExt, if_pos hdot, if_pos hpre]
      exact filter_lower_ext _ (fun hc => hsufdot '.' hc rfl)
    rw [hext] at hv
    have hpreslash : '/' ∉ preBeforeLast '.' (sufAfterLast '/' p) := by
      intro hc
      refine mem_sufAfterLast '/' p '/' ?_ rfl
      rw [hbase]
      exact List.mem_append.mpr (Or.inl hc)
    by_cases hsl : '/' ∈ p
    · have hp := decompLast '/' p hsl
      refine ⟨preBeforeLast '/' p ++ '/' :: preBeforeLast '.' (sufAfterLast '/' p),
        sufAfterLast '.' (sufAfterLast '/' p), ?_, ?_, ?_, ?_, hv⟩
      · rw [List.append_assoc, List.cons_append, ← hbase]
        exact hp
      · exact fun hc => hsufdot '.' hc rfl
      · exact fun hc => hsufslash '/' hc rfl
      · rw [sufAfterLast_append '/' _ _ hpreslash]
        exact hpre
    · have hp : sufAfterLast '/' p = p := sufAfterLast_not_mem '/' p hsl
      refine ⟨preBeforeLast '.' (sufAfterLast '/' p),
        sufAfterLast '.' (sufAfterLast '/' p), ?_, ?_, ?_, ?_, hv⟩
      · rw [← hbase, hp]
      · exact fun hc => hsufdot '.' hc rfl
      · exact fun hc => hsufslash '/' hc rfl
      · rw [sufAfterLast_not_mem '/' _ hpreslash]
        exact hpre
  · rintro ⟨s, e, rfl, hde, hse, hany, hmem⟩
    have hbase : sufAfterLast '/' (s ++ '.' :: e) =
        sufAfterLast '/' s ++ '.' :: e := by
      by_cases hsl : '/' ∈ s
      · have hs := decompLast '/' s hsl
        have htail : '/' ∉ sufAfterLast '/' s ++ '.' :: e := by
          intro hc
          rcases List.mem_append.mp hc with hc | hc
          · exact mem_sufAfterLast '/' s '/' hc rfl
          · rcases List.mem_cons.mp hc with hc | hc
            · exact absurd hc.symm (by decide)
            · exact hse hc
        have hrw : s ++ '.' :: e =
            preBeforeLast '/' s ++ '/' :: (sufAfterLast '/' s ++ '.' :: e) := by
          conv_lhs => rw [hs]
          simp
        rw [hrw]
        exact sufAfterLast_append '/' _ _ htail
      · have h1 : sufAfterLast '/' s = s := sufAfterLast_not_mem '/' s hsl
        have h2 : '/' ∉ s ++ '.' :: e := by
          intro hc
          rcases List.mem_append.mp hc with hc | hc
          · exact hsl hc
          · rcases List.mem_cons.mp hc with hc | hc
            · exact absurd hc.symm (by decide)
            · exact hse hc
        rw [sufAfterLast_not_mem '/' _ h2, h1]
    have hdot : '.' ∈ sufAfterLast '/' (s ++ '.' :: e) := by
      rw [hbase]
      exact List.mem_append.mpr (Or.inr (List.mem_cons.mpr (Or.inl rfl)))
    have hprebase : preBeforeLast '.' (sufAfterLast '/' (s ++ '.' :: e)) =
        sufAfterLast '/' s := by
      rw [hbase]
      exact preBeforeLast_append '.' _ _ hde
    have hsufbase : sufAfterLast '.' (sufAfterLast '/' (s ++ '.' :: e)) = e := by
      rw [hbase]
      exact sufAfterLast_append '.' _ _ hde
    rw [get_file_extension, splitextExt, if_pos hdot,
      if_pos (by rw [hprebase]; exact hany), hsufbase]
    rw [filter_lower_ext e hde]
    exact hmem

end NexaNet
